import Mathlib

/-!
# Verification model of `bin/report_runtimes.py` (matchlib)

A shallow embedding of the runtime-report script.  Log lines are lists of
characters, runtimes are exact rationals (Python `float` values are
idealised as `ℚ`), Python dictionaries are association lists updated in
place (`dictSet`), and the `re.search` call is a hand-rolled leftmost
matcher for the concrete pattern `elapsed time\s+([\d.]+)\s+seconds?`
with `re.IGNORECASE`.  File reads are modelled by a `FileContent` record
carrying the lines obtained before an optional read error, and the
filesystem walked by `Path.rglob` is modelled by a finite tree.
Unicode-only behaviours (non-ASCII digits and case folding) are modelled
at ASCII granularity.
-/

namespace ReportRuntimes

/-- One log line, as its list of characters. -/
abbrev Line := List Char

/-- Python regex `\s` whitespace, at ASCII granularity. -/
def isPySpace (c : Char) : Bool :=
  c = ' ' || c = '\t' || c = '\n' || c = '\r' || c = '\x0b' || c = '\x0c'

/-- Characters matched by the token class `[\d.]` (digits modelled as ASCII). -/
def isTokChar (c : Char) : Bool := c.isDigit || c = '.'

/-- `str.lower()`, modelled characterwise at ASCII granularity. -/
def lowerL (l : List Char) : List Char := l.map Char.toLower

/-- The completion marker literal of `parse_hls_runtimes` (line 105). -/
def markerLit : List Char := "Info: Completed transformation".toList

/-- The fixed literal head of the runtime regex (line 77). -/
def elapsedLit : List Char := "elapsed time".toList

/-- The fixed literal tail of the runtime regex (line 77); the trailing
`s?` of `seconds?` is optional and never affects the captured group. -/
def secondLit : List Char := "second".toList

/-- Case-insensitive match of a (lowercase) literal at the head of `l`;
returns the remainder on success.  Models the literal parts of the regex
under `re.IGNORECASE`. -/
def stripCI : List Char → List Char → Option (List Char)
  | [], l => some l
  | _ :: _, [] => none
  | p :: ps, c :: cs => if Char.toLower c = Char.toLower p then stripCI ps cs else none

/-- Attempt to match `elapsed time\s+([\d.]+)\s+second` at the very start
of `l`, returning the captured `[\d.]+` group.  Because the whitespace,
token and literal character classes are pairwise disjoint, the greedy
regex engine backtracks nowhere and each `+` consumes its maximal run. -/
def matchAt (l : List Char) : Option (List Char) :=
  (stripCI elapsedLit l).bind fun r1 =>
    let ws1 := r1.takeWhile isPySpace
    let r2 := r1.dropWhile isPySpace
    if ws1.isEmpty then none else
    let tok := r2.takeWhile isTokChar
    let r3 := r2.dropWhile isTokChar
    if tok.isEmpty then none else
    let ws2 := r3.takeWhile isPySpace
    let r4 := r3.dropWhile isPySpace
    if ws2.isEmpty then none else
    if (stripCI secondLit r4).isSome then some tok else none

/-- `re.search`: try every start position left to right, first match wins. -/
def reSearch : List Char → Option (List Char)
  | [] => none
  | c :: cs =>
    match matchAt (c :: cs) with
    | some tok => some tok
    | none => reSearch cs

/-- Value of a digit string read in base 10 (`'0'` has code 48). -/
def natOfDigits (l : List Char) : ℕ :=
  l.foldl (fun a c => 10 * a + (c.toNat - 48)) 0

/-- Exact value of a decimal token made of digits and at most one dot:
integer part plus fractional part. -/
def ratOfTok (tok : List Char) : ℚ :=
  let ip := tok.takeWhile (fun c => c ≠ '.')
  let fp := (tok.dropWhile (fun c => c ≠ '.')).drop 1
  (natOfDigits ip : ℚ) + (natOfDigits fp : ℚ) / (10 : ℚ) ^ fp.length

/-- Python `float()` restricted to non-empty `[\d.]+` tokens: it succeeds
iff the token has at most one dot and at least one digit (`"1.2.3"` and
`"."` raise `ValueError`, line 83); the value is exact. -/
def pyFloat (tok : List Char) : Option ℚ :=
  if tok.count '.' ≤ 1 && tok.any Char.isDigit then some (ratOfTok tok) else none

/-- `parse_runtime_from_line` (lines 71–86): regex search then `float()`;
any failure yields `None`. -/
def parse_runtime_from_line (line : Line) : Option ℚ :=
  (reSearch line).bind pyFloat

namespace parse_hls_runtimes

/-- The `expected_steps` list local to `parse_hls_runtimes` (lines 94–98). -/
def expected_steps : List String :=
  ["analyze", "compile", "libraries", "assembly", "loops",
   "memories", "cluster", "architect", "allocate", "schedule",
   "dpfsm", "instance", "extract"]

end parse_hls_runtimes

/-- The `for step in expected_steps: if step in line.lower(): … break`
loop (lines 107–112): the first step name, in list order, that occurs as
a substring of the lowercased line. -/
def firstMatchingStep (line : Line) : Option String :=
  parse_hls_runtimes.expected_steps.find? (fun step => decide (step.toList <:+: lowerL line))

/-- What one line contributes to the step map (lines 105–112): nothing
unless the completion marker occurs; otherwise the first matching step
name paired with the extracted runtime, if any. -/
def lineContribution (line : Line) : Option (String × ℚ) :=
  if markerLit <:+: line then
    match firstMatchingStep line with
    | some step =>
      match parse_runtime_from_line line with
      | some v => some (step, v)
      | none => none
    | none => none
  else none

/-- A Python dict from step names to runtimes, as an association list in
insertion order. -/
abbrev StepMap := List (String × ℚ)

/-- Python dict assignment `d[k] = v`: overwrite in place if the key is
present, else append. -/
def dictSet {β : Type} (k : String) (v : β) : List (String × β) → List (String × β)
  | [] => [(k, v)]
  | (k', v') :: t => if k' = k then (k, v) :: t else (k', v') :: dictSet k v t

/-- Python dict lookup `d.get(k)`. -/
def dictGet {β : Type} (k : String) : List (String × β) → Option β
  | [] => none
  | (k', v') :: t => if k' = k then some v' else dictGet k t

/-- One iteration of the line loop of `parse_hls_runtimes`. -/
def processLine (m : StepMap) (line : Line) : StepMap :=
  match lineContribution line with
  | some (s, v) => dictSet s v m
  | none => m

/-- The full line loop of `parse_hls_runtimes` (lines 100–112). -/
def parseLines (lines : List Line) : StepMap :=
  lines.foldl processLine []

/-- A read error raised while opening or reading a log file. -/
inductive ReadError where
  | fileNotFound
  | other (msg : String)

/-- The observable content of one log file: the lines delivered before
the read failed (empty when `open` itself raised), and the error if any. -/
structure FileContent where
  lines : List Line
  err : Option ReadError

/-- `Path(p).parent.name`: the next-to-last `/`-separated component. -/
def parentName (p : String) : String :=
  ((p.splitOn "/").dropLast).getLast?.getD ""

/-- The missing-step warning of `parse_hls_runtimes` (lines 121–125). -/
def missingWarnings (logfile_path : String) (m : StepMap) : List String :=
  let missing := parse_hls_runtimes.expected_steps.filter (fun s => (dictGet s m).isNone)
  if missing.isEmpty then []
  else ["Warning: Design '" ++ parentName logfile_path ++ "' is missing steps: "
        ++ String.intercalate ", " missing]

/-- `parse_hls_runtimes` (lines 89–127), returning the step map together
with the warnings it prints.  On any read error the partially accumulated
map is discarded and an empty map returned (lines 114–119). -/
def parse_hls_runtimes (logfile_path : String) (fc : FileContent) : StepMap × List String :=
  match fc.err with
  | some ReadError.fileNotFound =>
    ([], ["Warning: Could not read logfile " ++ logfile_path])
  | some (ReadError.other e) =>
    ([], ["Warning: Error reading " ++ logfile_path ++ ": " ++ e])
  | none =>
    let m := parseLines fc.lines
    (m, missingWarnings logfile_path m)

/-- The collection loop of `main` (lines 37–42): each file is parsed and,
when the resulting step map is non-empty (Python truthiness), assigned
into the `design_runtimes` dict under its design name. -/
def collectRuntimes (files : List (String × String × FileContent)) : List (String × StepMap) :=
  files.foldl
    (fun acc f =>
      let step_runtimes := (parse_hls_runtimes f.2.1 f.2.2).1
      if step_runtimes.isEmpty then acc else dictSet f.1 step_runtimes acc)
    []

/-- Ordering used by `sorted(design_runtimes.items())`: tuples compare by
first component; design names are distinct dict keys, so the comparison
never reaches the second component. -/
def byName {β : Type} : (String × β) → (String × β) → Prop := fun a b => a.1 ≤ b.1

instance {β : Type} : DecidableRel (@byName β) :=
  fun a b => (inferInstance : Decidable (a.1 ≤ b.1))

instance {β : Type} : IsTotal (String × β) byName := ⟨fun a b => le_total a.1 b.1⟩

instance {β : Type} : IsTrans (String × β) byName := ⟨fun _ _ _ => le_trans⟩

/-- `sorted(design_runtimes.items())`. -/
def sortByName {β : Type} (l : List (String × β)) : List (String × β) :=
  List.insertionSort byName l

/-- Banker's rounding of an exact rational to an integer, as Python's
`round` and `%.2f` formatting round (the underlying binary float is
idealised as the exact value). -/
def roundHalfEven (q : ℚ) : ℤ :=
  let f := ⌊q⌋
  if q - f < 1 / 2 then f
  else if (1 : ℚ) / 2 < q - f then f + 1
  else if f % 2 = 0 then f else f + 1

/-- Python `round(x, 2)`. -/
def pyRound2 (q : ℚ) : ℚ := (roundHalfEven (100 * q) : ℚ) / 100

/-- Two-digit rendering of a remainder in `[0, 100)`. -/
def twoDigits (n : ℤ) : String := if n < 10 then "0" ++ toString n else toString n

/-- `"%.2f"` formatting of an (idealised) float. -/
def formatFixed2 (q : ℚ) : String :=
  let n := roundHalfEven (100 * q)
  if n < 0 then "-" ++ toString (-n / 100) ++ "." ++ twoDigits (-n % 100)
  else toString (n / 100) ++ "." ++ twoDigits (n % 100)

/-- Python format `f"{s:w}"`: left-justify in a field of width `w`,
padding with spaces, never truncating. -/
def ljust (s : String) (w : ℕ) : String :=
  s ++ String.mk (List.replicate (w - s.length) ' ')

/-- Right-justification in a field of width `w`, as `f"{x:8.2f}"` pads
its rendered number. -/
def rjust (s : String) (w : ℕ) : String :=
  String.mk (List.replicate (w - s.length) ' ') ++ s

/-- `sum(step_runtimes.values())` (line 138). -/
def sumValues (m : StepMap) : ℚ := (m.map Prod.snd).sum

/-- `generate_report` (lines 130–139), as the list of lines it prints:
`print("\nHLS Runtime Summary:")` contributes an empty line and the
header, then the 60-dash rule, then one row per design in sorted order. -/
def generate_report (design_runtimes : List (String × StepMap)) : List String :=
  ["", "HLS Runtime Summary:", String.mk (List.replicate 60 '-')] ++
    (sortByName design_runtimes).map (fun p =>
      ljust p.1 30 ++ " " ++ rjust (formatFixed2 (sumValues p.2)) 8 ++ " seconds")

/-- One CSV cell as the `csv.DictWriter` receives it: a string, a float
value, or `None` (rendered as an empty cell, distinct from `0.0`). -/
inductive Cell where
  | str (s : String)
  | num (q : ℚ)
  | empty
deriving DecidableEq

namespace export_to_csv

/-- The `expected_steps` list local to `export_to_csv` (lines 146–150). -/
def expected_steps : List String :=
  ["analyze", "compile", "libraries", "assembly", "loops",
   "memories", "cluster", "architect", "allocate", "schedule",
   "dpfsm", "instance", "extract"]

end export_to_csv

/-- `export_to_csv` (lines 142–171), as the table of rows it writes: the
header row, then one row per design in sorted order, each row in
fieldnames order `design, total_runtime, <steps>`, where `total_runtime`
accumulates exactly the steps present in the design's map and a missing
step yields a `None` cell. -/
def export_to_csv (design_runtimes : List (String × StepMap)) : List (List Cell) :=
  (Cell.str "design" :: Cell.str "total_runtime"
      :: export_to_csv.expected_steps.map Cell.str) ::
    (sortByName design_runtimes).map (fun p =>
      Cell.str p.1 ::
        Cell.num (pyRound2 ((export_to_csv.expected_steps.filterMap
            (fun s => dictGet s p.2)).sum)) ::
        export_to_csv.expected_steps.map (fun s =>
          match dictGet s p.2 with
          | some v => Cell.num v
          | none => Cell.empty))

mutual

/-- A finite directory tree: what `Path.rglob` walks.  Mutual with
`FSList` so that all traversals are structurally recursive. -/
inductive FSEntry where
  | file (name : String)
  | dir (name : String) (children : FSList)

/-- A list of sibling directory entries. -/
inductive FSList where
  | nil
  | cons (hd : FSEntry) (tl : FSList)

end

/-- The entries of an `FSList` as an ordinary list. -/
def FSList.toList : FSList → List FSEntry
  | .nil => []
  | .cons c cs => c :: cs.toList

/-- The name of an entry (`Path.name`). -/
def FSEntry.nameOf : FSEntry → String
  | .file n => n
  | .dir n _ => n

/-- Whether an entry is a plain file (not a directory). -/
def FSEntry.isRegularFile : FSEntry → Bool
  | .file _ => true
  | .dir _ _ => false

/-- The fixed filename pattern passed to `rglob` (line 63). -/
def logFileName : String := "catapult.log"

mutual

/-- `hls_path.rglob("catapult.log")` restricted to the subtree rooted at
one entry, paired with the design-name derivation of lines 64–66:
`pathToParent` is the component path of the entry's parent directory.
`pathlib` glob patterns match files of any kind, directories included,
so a directory named `catapult.log` is yielded too. -/
def rglobLogs : FSEntry → List String → List (String × List String)
  | .file n, pathToParent =>
    if n = logFileName then [((pathToParent.getLast?).getD "", pathToParent ++ [n])] else []
  | .dir n cs, pathToParent =>
    (if n = logFileName then [((pathToParent.getLast?).getD "", pathToParent ++ [n])] else [])
      ++ rglobList cs (pathToParent ++ [n])

/-- `rglobLogs` over a list of sibling entries, in order. -/
def rglobList : FSList → List String → List (String × List String)
  | .nil, _ => []
  | .cons c cs, pathToParent => rglobLogs c pathToParent ++ rglobList cs pathToParent

end

/-- `find_catapult_logs` (lines 51–68).  The filesystem argument is the
root directory when it exists (its own name, i.e. the last component of
`hls_dir`, and its children) and `none` when `hls_path.exists()` is
false.  Returns the located `(design_name, logfile_path)` pairs together
with the warnings printed; the root itself is never a match, glob
patterns being relative to it. -/
def find_catapult_logs (hls_dir : String) (root : Option (String × FSList)) :
    List (String × List String) × List String :=
  match root with
  | none => ([], ["Warning: HLS directory '" ++ hls_dir ++ "' does not exist"])
  | some (rootName, cs) => (rglobList cs [rootName], [])

/-- `IsEntryAt t relp e`: starting from `t` and following the child-name
components `relp` reaches the entry `e` (so `relp = []` means `e = t`,
and a non-empty `relp` ends with `e`'s own name). -/
inductive IsEntryAt : FSEntry → List String → FSEntry → Prop where
  | here (t : FSEntry) : IsEntryAt t [] t
  | step {n : String} {cs : FSList} {c e : FSEntry} {p : List String}
      (hc : c ∈ cs.toList) (h : IsEntryAt c p e) :
      IsEntryAt (FSEntry.dir n cs) (c.nameOf :: p) e

mutual

/-- Whether the subtree rooted at an entry contains a regular file whose
name is the log filename (the entry itself included when it is a file). -/
def FSEntry.hasMatchingFile : FSEntry → Bool
  | .file n => n = logFileName
  | .dir _ cs => FSList.hasMatchingFile cs

/-- `FSEntry.hasMatchingFile` over sibling entries. -/
def FSList.hasMatchingFile : FSList → Bool
  | .nil => false
  | .cons c cs => c.hasMatchingFile || cs.hasMatchingFile

end

/-- What one located file contributes to the `design_runtimes` dict in
`main` (lines 38–42): its parsed step map under its design name, unless
the map is empty (Python truthiness test on line 41). -/
def designContribution (f : String × String × FileContent) : Option (String × StepMap) :=
  let step_runtimes := (parse_hls_runtimes f.2.1 f.2.2).1
  if step_runtimes.isEmpty then none else some (f.1, step_runtimes)

/-- A sample log line whose completion marker, step name and runtime all
parse (used to instantiate theorems at a concrete input). -/
def demoLine : Line :=
  "# Info: Completed transformation 'compile': elapsed time 15.95 seconds".toList

/-- A sample log line whose captured token `1.2.3` fails `float()`. -/
def demoBadLine : Line :=
  "# Info: Completed transformation 'compile': elapsed time 1.2.3 seconds".toList

/-- A log file whose lines carry no completion marker at all. -/
def demoNoStepFile : FileContent :=
  { lines := ["Project setup done".toList], err := none }

/-- A one-file batch whose single design parses to an empty step map. -/
def demoFiles : List (String × String × FileContent) :=
  [("designA", "hls/designA/catapult.log", demoNoStepFile)]

/-- The children of a root directory whose only entry is a subdirectory
named `catapult.log` (and no file of that name anywhere). -/
def cexChildren : FSList :=
  FSList.cons (FSEntry.dir "catapult.log" FSList.nil) FSList.nil

/-! ## Dictionary lemmas -/

theorem dictGet_dictSet_self {β : Type} (k : String) (v : β) (m : List (String × β)) :
    dictGet k (dictSet k v m) = some v := by
  induction m with
  | nil => simp [dictSet, dictGet]
  | cons h t ih =>
    obtain ⟨k', v'⟩ := h
    by_cases hk : k' = k
    · simp [dictSet, hk, dictGet]
    · simp [dictSet, hk, dictGet, ih]

theorem dictGet_dictSet_ne {β : Type} {k k' : String} (hne : k' ≠ k) (v : β)
    (m : List (String × β)) : dictGet k (dictSet k' v m) = dictGet k m := by
  induction m with
  | nil => simp [dictSet, dictGet, hne]
  | cons h t ih =>
    obtain ⟨k'', v''⟩ := h
    by_cases hk : k'' = k'
    · subst hk
      simp [dictSet, dictGet, hne, ih]
    · by_cases hkk : k'' = k <;> simp [dictSet, dictGet, hk, hkk, ih, Ne.symm hne]

theorem mem_keys_dictSet {β : Type} (a k : String) (v : β) (m : List (String × β)) :
    a ∈ (dictSet k v m).map Prod.fst ↔ a = k ∨ a ∈ m.map Prod.fst := by
  induction m with
  | nil => simp [dictSet]
  | cons h t ih =>
    obtain ⟨k', v'⟩ := h
    by_cases hk : k' = k
    · subst hk
      simp [dictSet]
    · simp only [dictSet, hk, if_false, List.map_cons, List.mem_cons, ih]
      tauto

theorem nodup_keys_dictSet {β : Type} (k : String) (v : β) {m : List (String × β)}
    (h : (m.map Prod.fst).Nodup) : ((dictSet k v m).map Prod.fst).Nodup := by
  induction m with
  | nil => simp [dictSet]
  | cons p t ih =>
    obtain ⟨k', v'⟩ := p
    simp only [List.map_cons, List.nodup_cons] at h
    by_cases hk : k' = k
    · subst hk
      simpa [dictSet] using h
    · simp only [dictSet, hk, if_false, List.map_cons, List.nodup_cons]
      refine ⟨fun hmem => ?_, ih h.2⟩
      rcases (mem_keys_dictSet k' k v t).1 hmem with h1 | h1
      · exact hk h1
      · exact h.1 h1

/-- Last-write-wins for a left fold of dict assignments over an entry
list: the final binding of `k` is the value of the last entry keyed `k`. -/
theorem dictGet_foldl_dictSet {β : Type} (ents : List (String × β)) (k : String) :
    dictGet k (ents.foldl (fun m p => dictSet p.1 p.2 m) []) =
      ((ents.filter (fun p => p.1 = k)).getLast?).map Prod.snd := by
  induction ents using List.reverseRecOn with
  | nil => simp [dictGet]
  | append_singleton l e ih =>
    rw [List.foldl_append, List.filter_append]
    obtain ⟨k', v'⟩ := e
    by_cases hk : k' = k
    · subst hk
      simp [dictGet_dictSet_self]
    · simp [hk, dictGet_dictSet_ne hk, ih]

/-- Keys stay distinct under a left fold of dict assignments. -/
theorem nodup_keys_foldl_dictSet {β : Type} (ents : List (String × β)) :
    (((ents.foldl (fun m p => dictSet p.1 p.2 m) []).map Prod.fst)).Nodup := by
  suffices h : ∀ init : List (String × β), ((init.map Prod.fst).Nodup) →
      (((ents.foldl (fun m p => dictSet p.1 p.2 m) init).map Prod.fst)).Nodup by
    exact h [] (by simp)
  induction ents with
  | nil => intro init h; simpa using h
  | cons e t ih =>
    intro init h
    exact ih _ (nodup_keys_dictSet e.1 e.2 h)

/-- A key is bound exactly when it occurs among the keys. -/
theorem dictGet_isSome_iff {β : Type} (k : String) (m : List (String × β)) :
    (dictGet k m).isSome ↔ k ∈ m.map Prod.fst := by
  induction m with
  | nil => simp [dictGet]
  | cons p t ih =>
    obtain ⟨k', v'⟩ := p
    by_cases hk : k' = k
    · subst hk
      simp [dictGet]
    · have hk2 : k ≠ k' := fun h => hk h.symm
      simp [dictGet, hk, hk2, ih]

/-! ## Bridging the loops to entry folds -/

/-- The line loop of `parse_hls_runtimes` is the fold of dict
assignments over the per-line contributions. -/
theorem parseLines_eq_foldl (lines : List Line) :
    parseLines lines =
      (lines.filterMap lineContribution).foldl (fun m p => dictSet p.1 p.2 m) [] := by
  suffices h : ∀ init : StepMap, lines.foldl processLine init =
      (lines.filterMap lineContribution).foldl (fun m p => dictSet p.1 p.2 m) init from
    h []
  induction lines with
  | nil => intro init; rfl
  | cons l t ih =>
    intro init
    simp only [List.foldl_cons, List.filterMap_cons, processLine]
    cases hc : lineContribution l with
    | none => exact ih init
    | some p => simp only [List.foldl_cons]; exact ih (dictSet p.1 p.2 init)

/-- The collection loop of `main` is the fold of dict assignments over
the per-file design contributions. -/
theorem collectRuntimes_eq_foldl (files : List (String × String × FileContent)) :
    collectRuntimes files =
      (files.filterMap designContribution).foldl (fun m p => dictSet p.1 p.2 m) [] := by
  suffices h : ∀ init : List (String × StepMap),
      files.foldl
        (fun acc f =>
          let step_runtimes := (parse_hls_runtimes f.2.1 f.2.2).1
          if step_runtimes.isEmpty then acc else dictSet f.1 step_runtimes acc)
        init =
      (files.filterMap designContribution).foldl (fun m p => dictSet p.1 p.2 m) init from
    h []
  induction files with
  | nil => intro init; rfl
  | cons f t ih =>
    intro init
    simp only [List.foldl_cons, List.filterMap_cons, designContribution]
    by_cases he : ((parse_hls_runtimes f.2.1 f.2.2).1).isEmpty
    · simp only [he, if_true]
      exact ih init
    · simp only [he, if_false, List.foldl_cons]
      exact ih (dictSet f.1 (parse_hls_runtimes f.2.1 f.2.2).1 init)

/-! ## C1 and C10: last-write-wins -/

/-- C1: within one log file, each step name maps to the runtime of the
last line (in forward scan order) that contributed a value for it —
later assignments overwrite earlier ones. -/
theorem step_runtime_last_write_wins (lines : List Line) (s : String) :
    dictGet s (parseLines lines) =
      (((lines.filterMap lineContribution).filter (fun p => p.1 = s)).getLast?).map
        Prod.snd := by
  rw [parseLines_eq_foldl, dictGet_foldl_dictSet]

/-- C10: when several located log files share a design name, the
collected mapping holds a single entry for that name, whose step map is
the parse of the last such file (with a non-empty parse) in traversal
order — earlier parses are silently replaced, with no merging. -/
theorem duplicate_design_last_parse_wins (files : List (String × String × FileContent))
    (n : String) :
    dictGet n (collectRuntimes files) =
      (((files.filterMap designContribution).filter (fun q => q.1 = n)).getLast?).map
        Prod.snd ∧
    ((collectRuntimes files).map Prod.fst).Nodup := by
  rw [collectRuntimes_eq_foldl]
  exact ⟨dictGet_foldl_dictSet _ n, nodup_keys_foldl_dictSet _⟩

/-! ## Soundness of the hand-rolled regex matcher -/

theorem stripCI_sound (p : List Char) :
    ∀ l r, stripCI p l = some r → ∃ q, l = q ++ r ∧ lowerL q = lowerL p := by
  induction p with
  | nil =>
    intro l r h
    simp only [stripCI, Option.some.injEq] at h
    exact ⟨[], by simp [h], rfl⟩
  | cons pc ps ih =>
    intro l r h
    cases l with
    | nil => simp [stripCI] at h
    | cons c cs =>
      simp only [stripCI] at h
      by_cases hc : Char.toLower c = Char.toLower pc
      · rw [if_pos hc] at h
        obtain ⟨q, hq, hl⟩ := ih cs r h
        refine ⟨c :: q, by simp [hq], ?_⟩
        simp only [lowerL, List.map_cons] at hl ⊢
        exact by rw [hc, hl]
      · rw [if_neg hc] at h
        exact absurd h (by simp)

theorem lowerL_elapsedLit : lowerL elapsedLit = elapsedLit := by decide

theorem lowerL_secondLit : lowerL secondLit = secondLit := by decide

theorem matchAt_sound {l tok : List Char} (h : matchAt l = some tok) :
    ∃ et ws1 ws2 sec rest,
      l = et ++ ws1 ++ tok ++ ws2 ++ sec ++ rest ∧
      lowerL et = elapsedLit ∧
      ws1 ≠ [] ∧ (∀ c ∈ ws1, isPySpace c) ∧
      tok ≠ [] ∧ (∀ c ∈ tok, isTokChar c) ∧
      ws2 ≠ [] ∧ (∀ c ∈ ws2, isPySpace c) ∧
      lowerL sec = secondLit := by
  unfold matchAt at h
  cases hs : stripCI elapsedLit l with
  | none => rw [hs] at h; exact absurd h (by simp)
  | some r1 =>
    rw [hs] at h
    simp only [Option.some_bind] at h
    by_cases h1 : (r1.takeWhile isPySpace).isEmpty = true
    · rw [if_pos h1] at h; exact absurd h (by simp)
    · rw [if_neg h1] at h
      by_cases h2 : ((r1.dropWhile isPySpace).takeWhile isTokChar).isEmpty = true
      · rw [if_pos h2] at h; exact absurd h (by simp)
      · rw [if_neg h2] at h
        by_cases h3 :
            (((r1.dropWhile isPySpace).dropWhile isTokChar).takeWhile isPySpace).isEmpty = true
        · rw [if_pos h3] at h; exact absurd h (by simp)
        · rw [if_neg h3] at h
          by_cases h4 : (stripCI secondLit
              (((r1.dropWhile isPySpace).dropWhile isTokChar).dropWhile isPySpace)).isSome = true
          · rw [if_pos h4] at h
            obtain ⟨res, hres⟩ := Option.isSome_iff_exists.1 h4
            obtain ⟨sec, hsec, hsecl⟩ := stripCI_sound secondLit _ res hres
            obtain ⟨et, het, hetl⟩ := stripCI_sound elapsedLit l r1 hs
            simp only [Option.some.injEq] at h
            refine ⟨et, r1.takeWhile isPySpace,
              ((r1.dropWhile isPySpace).dropWhile isTokChar).takeWhile isPySpace,
              sec, res, ?_, by rw [hetl, lowerL_elapsedLit], ?_,
              fun c hc => List.mem_takeWhile_imp hc, ?_,
              ?_, ?_,
              fun c hc => List.mem_takeWhile_imp hc, by rw [hsecl, lowerL_secondLit]⟩
            · rw [het, ← h]
              have e1 : r1.takeWhile isPySpace ++ r1.dropWhile isPySpace = r1 :=
                List.takeWhile_append_dropWhile ..
              have e2 : (r1.dropWhile isPySpace).takeWhile isTokChar ++
                  (r1.dropWhile isPySpace).dropWhile isTokChar = r1.dropWhile isPySpace :=
                List.takeWhile_append_dropWhile ..
              have e3 : ((r1.dropWhile isPySpace).dropWhile isTokChar).takeWhile isPySpace ++
                  ((r1.dropWhile isPySpace).dropWhile isTokChar).dropWhile isPySpace =
                  (r1.dropWhile isPySpace).dropWhile isTokChar :=
                List.takeWhile_append_dropWhile ..
              rw [List.append_assoc, List.append_assoc, List.append_assoc, List.append_assoc,
                ← hsec, e3, e2, e1]
            · intro hnil; rw [hnil] at h1; simp at h1
            · intro hnil; rw [hnil] at h; rw [h] at h2; simp at h2
            · intro c hc; rw [← h] at hc; exact List.mem_takeWhile_imp hc
            · intro hnil; rw [hnil] at h3; simp at h3
          · rw [if_neg h4] at h; exact absurd h (by simp)

theorem reSearch_sound : ∀ {l tok : List Char}, reSearch l = some tok →
    ∃ a r, l = a ++ r ∧ matchAt r = some tok := by
  intro l
  induction l with
  | nil => intro tok h; simp [reSearch] at h
  | cons c cs ih =>
    intro tok h
    unfold reSearch at h
    cases hm : matchAt (c :: cs) with
    | some t =>
      rw [hm] at h
      simp only [Option.some.injEq] at h
      exact ⟨[], c :: cs, rfl, by rw [hm, h]⟩
    | none =>
      rw [hm] at h
      obtain ⟨a, r, ha, hr⟩ := ih h
      exact ⟨c :: a, r, by simp [ha], hr⟩

/-! ## C2: per-line parsing semantics -/

theorem firstMatchingStep_eq_some (line : Line) (s : String) :
    firstMatchingStep line = some s ↔
      ∃ pre post, parse_hls_runtimes.expected_steps = pre ++ s :: post ∧
        s.toList <:+: lowerL line ∧ ∀ s' ∈ pre, ¬ (s'.toList <:+: lowerL line) := by
  unfold firstMatchingStep
  rw [List.find?_eq_some]
  simp only [decide_eq_true_eq, Bool.not_eq_true', decide_eq_false_iff_not]
  constructor
  · rintro ⟨hp, as, bs, hx, hall⟩
    exact ⟨as, bs, hx, hp, hall⟩
  · rintro ⟨pre, post, hx, hp, hall⟩
    exact ⟨hp, pre, post, hx, hall⟩

/-- C2: a line records an entry exactly when it carries the literal
completion marker, some expected step name — tested in expected-list
order, the first match winning — occurs case-insensitively in it, and a
runtime is extractable from it; moreover every recorded value stems from
an occurrence of `elapsed time` + whitespace + a digits-and-dots token
with at most one dot and at least one digit + whitespace + `second`
(case-insensitive), the value being the token's decimal value. -/
theorem line_contribution_characterization (line : Line) (s : String) (v : ℚ) :
    (lineContribution line = some (s, v) ↔
      markerLit <:+: line ∧
      (∃ pre post, parse_hls_runtimes.expected_steps = pre ++ s :: post ∧
        s.toList <:+: lowerL line ∧ ∀ s' ∈ pre, ¬ (s'.toList <:+: lowerL line)) ∧
      parse_runtime_from_line line = some v) ∧
    (lineContribution line = some (s, v) →
      ∃ a et ws1 tok ws2 sec rest,
        line = a ++ et ++ ws1 ++ tok ++ ws2 ++ sec ++ rest ∧
        lowerL et = elapsedLit ∧
        ws1 ≠ [] ∧ (∀ c ∈ ws1, isPySpace c) ∧
        tok ≠ [] ∧ (∀ c ∈ tok, isTokChar c) ∧
        tok.count '.' ≤ 1 ∧ tok.any Char.isDigit ∧
        ws2 ≠ [] ∧ (∀ c ∈ ws2, isPySpace c) ∧
        lowerL sec = secondLit ∧
        v = ratOfTok tok) := by
  have hiff : lineContribution line = some (s, v) ↔
      markerLit <:+: line ∧
      (∃ pre post, parse_hls_runtimes.expected_steps = pre ++ s :: post ∧
        s.toList <:+: lowerL line ∧ ∀ s' ∈ pre, ¬ (s'.toList <:+: lowerL line)) ∧
      parse_runtime_from_line line = some v := by
    constructor
    · intro h
      unfold lineContribution at h
      by_cases hm : markerLit <:+: line
      · rw [if_pos hm] at h
        cases hf : firstMatchingStep line with
        | none => rw [hf] at h; exact absurd h (by simp)
        | some step =>
          rw [hf] at h
          cases hp : parse_runtime_from_line line with
          | none => rw [hp] at h; exact absurd h (by simp)
          | some v' =>
            rw [hp] at h
            simp only [Option.some.injEq, Prod.mk.injEq] at h
            obtain ⟨hs, hv⟩ := h
            subst hs; subst hv
            exact ⟨hm, (firstMatchingStep_eq_some line step).1 hf, rfl⟩
      · rw [if_neg hm] at h; exact absurd h (by simp)
    · rintro ⟨hm, hfirst, hrt⟩
      unfold lineContribution
      rw [if_pos hm, (firstMatchingStep_eq_some line s).2 hfirst, hrt]
  refine ⟨hiff, fun h => ?_⟩
  obtain ⟨_, _, hrt⟩ := hiff.1 h
  rw [parse_runtime_from_line] at hrt
  obtain ⟨tok, hsearch, hfloat⟩ := Option.bind_eq_some.1 hrt
  obtain ⟨a, r, hl, hmatch⟩ := reSearch_sound hsearch
  obtain ⟨et, ws1, ws2, sec, rest, hr, het, hws1, hws1p, htok, htokp, hws2, hws2p, hsec⟩ :=
    matchAt_sound hmatch
  unfold pyFloat at hfloat
  by_cases hcond : (decide (tok.count '.' ≤ 1) && tok.any Char.isDigit) = true
  · rw [if_pos hcond] at hfloat
    simp only [Option.some.injEq] at hfloat
    simp only [Bool.and_eq_true, decide_eq_true_eq] at hcond
    exact ⟨a, et, ws1, tok, ws2, sec, rest,
      by rw [hl, hr]; simp [List.append_assoc],
      het, hws1, hws1p, htok, htokp, hcond.1, hcond.2, hws2, hws2p, hsec, hfloat.symm⟩
  · rw [if_neg hcond] at hfloat
    exact absurd hfloat (by simp)

set_option maxRecDepth 100000 in
/-- C2 witness: the characterization instantiated at a concrete line. -/
theorem line_contribution_characterization_witness :
    lineContribution demoLine = some ("compile", ratOfTok ("15.95".toList)) := by
  refine ((line_contribution_characterization demoLine "compile"
    (ratOfTok ("15.95".toList))).1).mpr ⟨by decide, ?_, ?_⟩
  · refine ⟨["analyze"],
      ["libraries", "assembly", "loops", "memories", "cluster", "architect",
       "allocate", "schedule", "dpfsm", "instance", "extract"], rfl, by decide, ?_⟩
    intro s' hs'
    simp only [List.mem_singleton] at hs'
    subst hs'
    decide
  · rfl

/-! ## Sorting lemmas -/

theorem sortByName_perm {β : Type} (l : List (String × β)) : (sortByName l).Perm l :=
  List.perm_insertionSort _ l

theorem sortByName_sorted_names {β : Type} (l : List (String × β)) :
    ((sortByName l).map Prod.fst).Sorted (· ≤ ·) :=
  List.Pairwise.map Prod.fst (fun _ _ h => h) (List.sorted_insertionSort byName l)

/-! ## C3 and C4: report and export structure -/

/-- C3: the text report is the header block followed by exactly one row
per design (a permutation of the mapping), designs in ascending lexical
name order; each row is the name left-justified in a 30-character field,
a space, the design's total — the sum of exactly that design's recorded
per-step values — formatted to two decimal places and right-justified in
an 8-character field, then the suffix " seconds". -/
theorem generate_report_structure (design_runtimes : List (String × StepMap)) :
    ∃ rows : List (String × StepMap), rows.Perm design_runtimes ∧
      (rows.map Prod.fst).Sorted (· ≤ ·) ∧
      generate_report design_runtimes =
        ["", "HLS Runtime Summary:", String.mk (List.replicate 60 '-')] ++
          rows.map (fun p =>
            ljust p.1 30 ++ " " ++ rjust (formatFixed2 ((p.2.map Prod.snd).sum)) 8
              ++ " seconds") :=
  ⟨sortByName design_runtimes, sortByName_perm _, sortByName_sorted_names _, rfl⟩

/-- C4: the export table is the fixed header row `design, total_runtime,
<the 13 steps in order>` followed by one data row per design (a
permutation of the mapping) in ascending name order; a step missing from
a design's map renders as the empty cell, and the empty cell differs
from every numeric cell (a recorded zero included); each row's total is
the sum of exactly the design's present step values, rounded to two
decimal places. -/
theorem export_to_csv_structure (design_runtimes : List (String × StepMap)) :
    ∃ rows : List (String × StepMap), rows.Perm design_runtimes ∧
      (rows.map Prod.fst).Sorted (· ≤ ·) ∧
      export_to_csv design_runtimes =
        (Cell.str "design" :: Cell.str "total_runtime"
            :: export_to_csv.expected_steps.map Cell.str) ::
          rows.map (fun p =>
            Cell.str p.1 ::
              Cell.num (pyRound2 ((export_to_csv.expected_steps.filterMap
                  (fun s => dictGet s p.2)).sum)) ::
              export_to_csv.expected_steps.map (fun s =>
                match dictGet s p.2 with
                | some v => Cell.num v
                | none => Cell.empty)) ∧
      (∀ (m : StepMap) (s : String), dictGet s m = none →
        (match dictGet s m with
         | some v => Cell.num v
         | none => Cell.empty) = Cell.empty) ∧
      (∀ q : ℚ, Cell.empty ≠ Cell.num q) := by
  refine ⟨sortByName design_runtimes, sortByName_perm _, sortByName_sorted_names _, rfl,
    ?_, ?_⟩
  · intro m s h
    rw [h]
  · intro q h
    exact Cell.noConfusion h

/-! ## C5: read errors -/

/-- C5: a missing or otherwise unreadable log file parses to the empty
mapping — any lines accumulated before the failure are discarded — after
emitting a warning that names the path (and carries the error text for
non-missing-file errors); and such a file never aborts the batch:
collecting a file list with it equals collecting the list without it. -/
theorem read_error_yields_empty_and_skips (path : String) (ls ls' : List Line) (e : String)
    (pre post : List (String × String × FileContent)) (n p : String) :
    parse_hls_runtimes path { lines := ls, err := some ReadError.fileNotFound } =
      ([], ["Warning: Could not read logfile " ++ path]) ∧
    parse_hls_runtimes path { lines := ls, err := some (ReadError.other e) } =
      ([], ["Warning: Error reading " ++ path ++ ": " ++ e]) ∧
    ∀ err : ReadError,
      collectRuntimes (pre ++ (n, p, { lines := ls', err := some err }) :: post) =
        collectRuntimes (pre ++ post) := by
  refine ⟨rfl, rfl, fun err => ?_⟩
  rw [collectRuntimes_eq_foldl, collectRuntimes_eq_foldl]
  have hnone : designContribution (n, p, { lines := ls', err := some err }) = none := by
    cases err <;> rfl
  rw [List.filterMap_append, List.filterMap_append, List.filterMap_cons, hnone]

/-! ## C6: malformed numeric tokens -/

/-- C6: a line whose captured numeric token fails to parse as a real
number yields no runtime value, and such a line leaves the step map
untouched — never a fatal error. -/
theorem malformed_token_contributes_nothing (line : Line) (tok : List Char)
    (h1 : reSearch line = some tok) (h2 : pyFloat tok = none) :
    parse_runtime_from_line line = none ∧ ∀ m : StepMap, processLine m line = m := by
  have hp : parse_runtime_from_line line = none := by
    rw [parse_runtime_from_line, h1, Option.some_bind, h2]
  have hc : lineContribution line = none := by
    unfold lineContribution
    by_cases hm : markerLit <:+: line
    · rw [if_pos hm]
      cases hf : firstMatchingStep line with
      | none => rfl
      | some step => rw [hp]
    · rw [if_neg hm]
  refine ⟨hp, fun m => ?_⟩
  unfold processLine
  rw [hc]

set_option maxRecDepth 100000 in
/-- C6 witness: at a concrete line whose token `1.2.3` fails `float()`. -/
theorem malformed_token_contributes_nothing_witness :
    parse_runtime_from_line demoBadLine = none ∧ processLine [] demoBadLine = [] :=
  ⟨(malformed_token_contributes_nothing demoBadLine ("1.2.3".toList) rfl (by decide)).1,
   (malformed_token_contributes_nothing demoBadLine ("1.2.3".toList) rfl (by decide)).2 []⟩

/-! ## C7: designs with zero recognized steps -/

/-- C7: a design all of whose log files parse to an empty step map is
absent from the collected mapping, hence from every text-report row and
every export data row — it is never rendered as an all-missing row. -/
theorem zero_step_design_excluded (files : List (String × String × FileContent)) (n : String)
    (h : ∀ p c, (n, p, c) ∈ files → (parse_hls_runtimes p c).1 = []) :
    n ∉ (collectRuntimes files).map Prod.fst ∧
    (∀ q ∈ sortByName (collectRuntimes files), q.1 ≠ n) ∧
    (∀ row ∈ (export_to_csv (collectRuntimes files)).drop 1,
      row.head? ≠ some (Cell.str n)) ∧
    (∀ row ∈ (generate_report (collectRuntimes files)).drop 3,
      ∃ q, q ∈ sortByName (collectRuntimes files) ∧ q.1 ≠ n ∧
        row = ljust q.1 30 ++ " " ++ rjust (formatFixed2 (sumValues q.2)) 8
          ++ " seconds") := by
  have hkeys : n ∉ (collectRuntimes files).map Prod.fst := by
    rw [collectRuntimes_eq_foldl]
    intro hmem
    have hsome := (dictGet_isSome_iff n _).2 hmem
    rw [dictGet_foldl_dictSet] at hsome
    obtain ⟨x, hx⟩ := Option.isSome_iff_exists.1 hsome
    obtain ⟨y, hy, _⟩ := Option.map_eq_some'.1 hx
    have hymem := List.mem_of_mem_getLast? hy
    obtain ⟨f, hf, hdf⟩ := List.mem_filterMap.1 (List.mem_of_mem_filter hymem)
    have hy1 : y.1 = n := by
      have := List.of_mem_filter hymem
      simpa using this
    obtain ⟨fn, fp, fc⟩ := f
    unfold designContribution at hdf
    by_cases he : ((parse_hls_runtimes fp fc).1).isEmpty = true
    · rw [if_pos he] at hdf
      exact absurd hdf (by simp)
    · rw [if_neg he] at hdf
      simp only [Option.some.injEq] at hdf
      have hfn : fn = n := by rw [← hy1, ← hdf]
      subst hfn
      rw [h fp fc hf] at he
      exact he rfl
  have hq : ∀ q ∈ sortByName (collectRuntimes files), q.1 ≠ n := by
    intro q hq hqn
    have hmem : q ∈ collectRuntimes files := (sortByName_perm _).mem_iff.1 hq
    exact hkeys (hqn ▸ List.mem_map.2 ⟨q, hmem, rfl⟩)
  refine ⟨hkeys, hq, ?_, ?_⟩
  · intro row hrow
    have : row ∈ (sortByName (collectRuntimes files)).map (fun p =>
        Cell.str p.1 ::
          Cell.num (pyRound2 ((export_to_csv.expected_steps.filterMap
              (fun s => dictGet s p.2)).sum)) ::
          export_to_csv.expected_steps.map (fun s =>
            match dictGet s p.2 with
            | some v => Cell.num v
            | none => Cell.empty)) := hrow
    obtain ⟨q, hqmem, hqrow⟩ := List.mem_map.1 this
    intro hhead
    rw [← hqrow] at hhead
    simp only [List.head?_cons, Option.some.injEq, Cell.str.injEq] at hhead
    exact hq q hqmem hhead
  · intro row hrow
    have : row ∈ (sortByName (collectRuntimes files)).map (fun p =>
        ljust p.1 30 ++ " " ++ rjust (formatFixed2 (sumValues p.2)) 8 ++ " seconds") := hrow
    obtain ⟨q, hqmem, hqrow⟩ := List.mem_map.1 this
    exact ⟨q, hqmem, hq q hqmem, hqrow.symm⟩

set_option maxRecDepth 100000 in
/-- C7 witness: a one-file batch whose only design has no recognized
steps contributes nothing to the collected mapping. -/
theorem zero_step_design_excluded_witness :
    "designA" ∉ (collectRuntimes demoFiles).map Prod.fst :=
  (zero_step_design_excluded demoFiles "designA" (by
    intro p c hm
    simp only [demoFiles, List.mem_singleton, Prod.mk.injEq, true_and] at hm
    obtain ⟨hp, hc⟩ := hm
    subst hp
    subst hc
    rfl)).1

/-! ## C8: the duplicated step-list constant -/

/-- C8: the expected-step list defined in the parsing path and the one
defined in the export path are equal as ordered sequences. -/
theorem expected_steps_constants_agree :
    parse_hls_runtimes.expected_steps = export_to_csv.expected_steps := rfl

/-! ## C9: the log locator -/

theorem dropLast_append_singleton {α : Type} (l : List α) (a : α) :
    (l ++ [a]).dropLast = l := by simp

theorem isEntryAt_file_inv {n : String} {relp : List String} {e : FSEntry}
    (h : IsEntryAt (FSEntry.file n) relp e) : relp = [] ∧ e = FSEntry.file n := by
  cases h
  exact ⟨rfl, rfl⟩

theorem isEntryAt_dir_inv {n : String} {cs : FSList} {relp : List String} {e : FSEntry}
    (h : IsEntryAt (FSEntry.dir n cs) relp e) :
    (relp = [] ∧ e = FSEntry.dir n cs) ∨
      ∃ c ∈ cs.toList, ∃ p', relp = c.nameOf :: p' ∧ IsEntryAt c p' e := by
  cases h with
  | here => exact Or.inl ⟨rfl, rfl⟩
  | step hc h => exact Or.inr ⟨_, hc, _, rfl, h⟩

mutual

theorem mem_rglobLogs : ∀ (t : FSEntry) (pp : List String) (d : String) (p : List String),
    (d, p) ∈ rglobLogs t pp ↔
      ∃ relp e, IsEntryAt t relp e ∧ e.nameOf = logFileName ∧
        p = pp ++ t.nameOf :: relp ∧ d = ((p.dropLast).getLast?).getD ""
  | .file n, pp, d, p => by
    simp only [rglobLogs]
    constructor
    · intro hmem
      by_cases hn : n = logFileName
      · rw [if_pos hn] at hmem
        simp only [List.mem_singleton, Prod.mk.injEq] at hmem
        obtain ⟨hd, hp⟩ := hmem
        refine ⟨[], FSEntry.file n, IsEntryAt.here _, hn, by rw [hp]; rfl, ?_⟩
        rw [hd, hp, dropLast_append_singleton]
      · rw [if_neg hn] at hmem
        simp at hmem
    · rintro ⟨relp, e, hat, hname, hp, hd⟩
      obtain ⟨hrelp, he⟩ := isEntryAt_file_inv hat
      subst hrelp
      subst he
      have hn : n = logFileName := hname
      rw [if_pos hn]
      simp only [List.mem_singleton, Prod.mk.injEq]
      have hp' : p = pp ++ [n] := hp
      refine ⟨?_, hp'⟩
      rw [hd, hp', dropLast_append_singleton]
  | .dir n cs, pp, d, p => by
    simp only [rglobLogs, List.mem_append]
    rw [mem_rglobList cs (pp ++ [n]) d p]
    constructor
    · rintro (hself | ⟨c, hc, relp', e, hat, hname, hp, hd⟩)
      · by_cases hn : n = logFileName
        · rw [if_pos hn] at hself
          simp only [List.mem_singleton, Prod.mk.injEq] at hself
          obtain ⟨hd, hp⟩ := hself
          refine ⟨[], FSEntry.dir n cs, IsEntryAt.here _, hn, by rw [hp]; rfl, ?_⟩
          rw [hd, hp, dropLast_append_singleton]
        · rw [if_neg hn] at hself
          simp at hself
      · refine ⟨FSEntry.nameOf c :: relp', e, IsEntryAt.step hc hat, hname, ?_, hd⟩
        rw [hp]
        simp [FSEntry.nameOf]
    · rintro ⟨relp, e, hat, hname, hp, hd⟩
      rcases isEntryAt_dir_inv hat with ⟨hrelp, he⟩ | ⟨c, hc, p', hrelp, hat'⟩
      · subst hrelp
        subst he
        left
        have hn : n = logFileName := hname
        rw [if_pos hn]
        simp only [List.mem_singleton, Prod.mk.injEq]
        have hp' : p = pp ++ [n] := hp
        refine ⟨?_, hp'⟩
        rw [hd, hp', dropLast_append_singleton]
      · subst hrelp
        right
        exact ⟨c, hc, p', e, hat', hname, by rw [hp]; simp [FSEntry.nameOf], hd⟩

theorem mem_rglobList : ∀ (l : FSList) (pp : List String) (d : String) (p : List String),
    (d, p) ∈ rglobList l pp ↔
      ∃ c ∈ l.toList, ∃ relp e, IsEntryAt c relp e ∧ e.nameOf = logFileName ∧
        p = pp ++ c.nameOf :: relp ∧ d = ((p.dropLast).getLast?).getD ""
  | .nil, pp, d, p => by simp [rglobList, FSList.toList]
  | .cons c cst, pp, d, p => by
    simp only [rglobList, List.mem_append]
    rw [mem_rglobLogs c pp d p, mem_rglobList cst pp d p]
    constructor
    · rintro (⟨relp, e, hat, hn, hp, hd⟩ | ⟨c', hc', rest⟩)
      · exact ⟨c, by simp [FSList.toList], relp, e, hat, hn, hp, hd⟩
      · exact ⟨c', by simp [FSList.toList, hc'], rest⟩
    · rintro ⟨c', hc', relp, e, hat, hn, hp, hd⟩
      simp only [FSList.toList, List.mem_cons] at hc'
      rcases hc' with h | h
      · subst h
        exact Or.inl ⟨relp, e, hat, hn, hp, hd⟩
      · exact Or.inr ⟨c', h, relp, e, hat, hn, hp, hd⟩

end

/-- C9 (amended): the locator pairs are exactly the entries — files or
directories, `pathlib` glob patterns matching files of any kind — in the
subtree below the root whose name is the fixed log filename, each with
the name of its immediate parent directory; a missing root yields a
warning naming the directory and an empty sequence, not an error. -/
theorem find_catapult_logs_characterization (hls_dir rootName : String) (cs : FSList)
    (d : String) (p : List String) :
    find_catapult_logs hls_dir none =
      ([], ["Warning: HLS directory '" ++ hls_dir ++ "' does not exist"]) ∧
    ((d, p) ∈ (find_catapult_logs hls_dir (some (rootName, cs))).1 ↔
      ∃ relp e, IsEntryAt (FSEntry.dir rootName cs) relp e ∧ relp ≠ [] ∧
        e.nameOf = logFileName ∧ p = rootName :: relp ∧
        d = ((p.dropLast).getLast?).getD "") := by
  refine ⟨rfl, ?_⟩
  show (d, p) ∈ rglobList cs [rootName] ↔ _
  rw [mem_rglobList cs [rootName] d p]
  constructor
  · rintro ⟨c, hc, relp', e, hat, hname, hp, hd⟩
    exact ⟨c.nameOf :: relp', e, IsEntryAt.step hc hat, by simp, hname, by rw [hp]; rfl, hd⟩
  · rintro ⟨relp, e, hat, hne, hname, hp, hd⟩
    rcases isEntryAt_dir_inv hat with ⟨hrelp, _⟩ | ⟨c, hc, p', hrelp, hat'⟩
    · exact absurd hrelp hne
    · subst hrelp
      exact ⟨c, hc, p', e, hat', hname, by rw [hp]; rfl, hd⟩

mutual

theorem hasMatchingFile_iff : ∀ (t : FSEntry),
    FSEntry.hasMatchingFile t = true ↔
      ∃ relp e, IsEntryAt t relp e ∧ FSEntry.isRegularFile e = true ∧
        e.nameOf = logFileName
  | .file n => by
    simp only [FSEntry.hasMatchingFile, decide_eq_true_eq]
    constructor
    · intro hn
      exact ⟨[], FSEntry.file n, IsEntryAt.here _, rfl, hn⟩
    · rintro ⟨relp, e, hat, _, hname⟩
      obtain ⟨_, he⟩ := isEntryAt_file_inv hat
      subst he
      exact hname
  | .dir n cs => by
    simp only [FSEntry.hasMatchingFile]
    rw [hasMatchingFileList_iff cs]
    constructor
    · rintro ⟨c, hc, relp, e, hat, hfile, hname⟩
      exact ⟨c.nameOf :: relp, e, IsEntryAt.step hc hat, hfile, hname⟩
    · rintro ⟨relp, e, hat, hfile, hname⟩
      rcases isEntryAt_dir_inv hat with ⟨_, he⟩ | ⟨c, hc, p', _, hat'⟩
      · subst he
        exact absurd hfile (by simp [FSEntry.isRegularFile])
      · exact ⟨c, hc, p', e, hat', hfile, hname⟩

theorem hasMatchingFileList_iff : ∀ (l : FSList),
    FSList.hasMatchingFile l = true ↔
      ∃ c ∈ l.toList, ∃ relp e, IsEntryAt c relp e ∧ FSEntry.isRegularFile e = true ∧
        e.nameOf = logFileName
  | .nil => by simp [FSList.hasMatchingFile, FSList.toList]
  | .cons c cst => by
    simp only [FSList.hasMatchingFile, Bool.or_eq_true]
    rw [hasMatchingFile_iff c, hasMatchingFileList_iff cst]
    constructor
    · rintro (⟨relp, e, hat, hfile, hname⟩ | ⟨c', hc', rest⟩)
      · exact ⟨c, by simp [FSList.toList], relp, e, hat, hfile, hname⟩
      · exact ⟨c', by simp [FSList.toList, hc'], rest⟩
    · rintro ⟨c', hc', relp, e, hat, hfile, hname⟩
      simp only [FSList.toList, List.mem_cons] at hc'
      rcases hc' with h | h
      · subst h
        exact Or.inl ⟨relp, e, hat, hfile, hname⟩
      · exact Or.inr ⟨c', h, relp, e, hat, hfile, hname⟩

end

/-- C9 counterexample: on a root whose only entry is a subdirectory
named `catapult.log`, the locator yields a pair for that directory even
though the subtree contains no regular file of that name — glob patterns
match entries of any kind, so pairs are not "exactly the files". -/
theorem find_yields_pair_for_directory :
    (find_catapult_logs "hls" (some ("hls", cexChildren))).1 =
      [("hls", ["hls", "catapult.log"])] ∧
    FSEntry.hasMatchingFile (FSEntry.dir "hls" cexChildren) = false :=
  ⟨rfl, rfl⟩

end ReportRuntimes
